import Mathlib

/-!
Shallow embedding of the ingress-links-controller (the most recent variant of
the Go source: the reconciler built by `buildReconciler`, the page template
`srvTpl`, and the HTTP handler built by `buildServer`).

Modelling conventions:
* Go maps (`map[string]*hostValues`, `hv.Paths`) become association lists with
  in-place update (`alSet`); a Go map read that defaults to the zero value
  (`item.Annotations[k]`) becomes a total function `String → String`.
* Go nil pointers become `Option`: `rule.HTTP` is `Option HTTPIngressRuleValue`,
  and dereferencing `none` (a Go nil-pointer panic) makes the whole pass return
  `none`.
* The html/template engine used for the per-record annotation templates is kept
  abstract as `TplEngine` (parse success, and execution as a partial function of
  the annotation text and the context value); the fixed root template `srvTpl`
  is translated concretely into `renderPage`.
-/

/-! ## Association lists modelling Go string-keyed maps -/

def alGet {α : Type} : List (String × α) → String → Option α
  | [], _ => none
  | (k, v) :: m, key => if key = k then some v else alGet m key

def alSet {α : Type} : List (String × α) → String → α → List (String × α)
  | [], key, v => [(key, v)]
  | (k, w) :: m, key, v => if key = k then (k, v) :: m else (k, w) :: alSet m key v

/-! ## Data model: the subset of k8s networking/v1 read by the controller -/

inductive PathType where
  | exact
  | prefixMatch
  | implementationSpecific
deriving DecidableEq

structure HTTPIngressPath where
  path : String
  pathType : Option PathType
deriving DecidableEq

structure HTTPIngressRuleValue where
  paths : List HTTPIngressPath
deriving DecidableEq

/-- Rule of an Ingress. The field `http` models the Go pointer field
`HTTP *HTTPIngressRuleValue`; `none` is a nil pointer. -/
structure IngressRule where
  host : String
  http : Option HTTPIngressRuleValue
deriving DecidableEq

/-- An ingress record. `annotations` models the Go `map[string]string` with its
zero-value default: absent keys read as `""`. -/
structure Ingress where
  name : String
  nspace : String
  annotations : String → String
  rules : List IngressRule

/-! ## Aggregation output values (`hostValues` / `pathValues` in the source) -/

structure pathValues where
  Host : String
  Path : String
  Text : String
deriving DecidableEq

structure hostValues where
  Host : String
  Text : String
  Paths : List (String × pathValues)
deriving DecidableEq

structure hostTemplateValue where
  Host : String
  Ingress : Ingress
  Rule : IngressRule

structure pathTemplateValue where
  Ingress : Ingress
  Rule : IngressRule
  Path : HTTPIngressPath

/-- Annotation keys of the source (the Go constants named hostTemplateAnnotation,
pathTemplateAnnotation and skipAnnotation). -/
def hostTemplateAnnKey : String := "ingress-links.nev.dev/host-template"
def pathTemplateAnnKey : String := "ingress-links.nev.dev/path-template"
def skipAnnKey : String := "ingress-links.nev.dev/skip"

/-! ## The per-record template engine, kept abstract

In the source a non-empty host/path template annotation is parsed into a clone
of the base template set (`tpl.Clone()` cannot fail here, since the base
template is never executed) and later executed against a context value.  The
engine abstracts exactly that: whether an annotation text parses, and what
executing it on a context produces (`none` = runtime execution error). -/

structure TplEngine where
  parseOk : String → Bool
  execHost : String → hostTemplateValue → Option String
  execPath : String → pathTemplateValue → Option String

/-- Derivation of the per-record override template from an annotation value:
empty annotation means no template; a parse failure is logged and the template
is dropped (`hostTpl = nil`). -/
def recTpl (eng : TplEngine) (t : String) : Option String :=
  if t = "" then none else if eng.parseOk t then some t else none

/-- Resolution of the path string of one HTTP path item (the `switch` over
`path.PathType`): only the exact and prefix kinds contribute their path
string; an unset or implementation-specific kind leaves it empty. -/
def resolvePath (path : HTTPIngressPath) : String :=
  match path.pathType with
  | none => ""
  | some PathType.exact => path.path
  | some PathType.prefixMatch => path.path
  | some PathType.implementationSpecific => ""

/-- Display text of a new path entry: the rendered path-template override when
one exists and executes successfully, otherwise the empty (default) text. -/
def pathText (eng : TplEngine) (pathTpl : Option String) (item : Ingress)
    (rule : IngressRule) (path : HTTPIngressPath) : String :=
  match pathTpl with
  | none => ""
  | some t =>
    match eng.execPath t ⟨item, rule, path⟩ with
    | none => ""
    | some s => s

/-- Processing of one `path` in `rule.HTTP.Paths` against the current host
entry (the body of the innermost loop of `buildReconciler`): an empty resolved
path or one already present under this host contributes nothing (first write
wins), otherwise a new entry is inserted. -/
def procPath (eng : TplEngine) (pathTpl : Option String) (item : Ingress)
    (rule : IngressRule) (host : String) (hv : hostValues)
    (path : HTTPIngressPath) : hostValues :=
  if resolvePath path = "" ∨ (alGet hv.Paths (resolvePath path)).isSome then hv
  else
    { hv with
      Paths := alSet hv.Paths (resolvePath path)
        ⟨host, resolvePath path, pathText eng pathTpl item rule path⟩ }

/-- Get-or-create of `hosts[host]` for a rule: the first writer creates the
entry, later rules and records find the existing one. -/
def ruleEntry (hosts : List (String × hostValues)) (host : String) : hostValues :=
  match alGet hosts host with
  | some hv => hv
  | none => ⟨host, "", []⟩

/-- Execution of the host-template override against the context of hostname,
record and rule: on success the display text of the entry is overwritten, on
execution failure (or with no override) it is kept as it was. -/
def applyHostTpl (eng : TplEngine) (hostTpl : Option String) (item : Ingress)
    (rule : IngressRule) (hv : hostValues) : hostValues :=
  match hostTpl with
  | none => hv
  | some t =>
    match eng.execHost t ⟨rule.host, item, rule⟩ with
    | none => hv
    | some s => { hv with Text := s }

/-- Processing of one `rule` of a record (the middle loop of
`buildReconciler`).  Returns `none` where the Go code panics: ranging over
`rule.HTTP.Paths` dereferences the nil `HTTP` pointer when the rule has a
non-empty host but no `http` section. -/
def procRule (eng : TplEngine) (hostTpl pathTpl : Option String) (item : Ingress)
    (hosts : List (String × hostValues)) (rule : IngressRule) :
    Option (List (String × hostValues)) :=
  if rule.host = "" then some hosts
  else
    match rule.http with
    | none => none
    | some httpVal =>
      some (alSet hosts rule.host
        (httpVal.paths.foldl (procPath eng pathTpl item rule rule.host)
          (applyHostTpl eng hostTpl item rule (ruleEntry hosts rule.host))))

/-- Processing of one record once the skip check has passed (derive the
override templates from the annotations, then fold over the rules). -/
def procItemBody (eng : TplEngine) (hosts : List (String × hostValues))
    (item : Ingress) : Option (List (String × hostValues)) :=
  let hostTpl := recTpl eng (item.annotations hostTemplateAnnKey)
  let pathTpl := recTpl eng (item.annotations pathTemplateAnnKey)
  item.rules.foldlM (procRule eng hostTpl pathTpl item) hosts

/-- Processing of one record of the listed ingresses (the outer loop of
`buildReconciler`): a record whose skip annotation is literally "true" is
ignored entirely. -/
def procItem (eng : TplEngine) (hosts : List (String × hostValues))
    (item : Ingress) : Option (List (String × hostValues)) :=
  if item.annotations skipAnnKey = "true" then some hosts
  else procItemBody eng hosts item

/-- Aggregation step of a reconciliation pass: fold all listed records into the
host map.  `none` models a panic of the pass (nil `HTTP` dereference). -/
def aggregate (eng : TplEngine) (items : List Ingress) :
    Option (List (String × hostValues)) :=
  items.foldlM (procItem eng) []

/-! ## The host comparator of `buildReconciler`

The Go code sorts the collected hosts with a comparator that splits each
hostname on "." (`strings.Split`), walks the segments from the right (TLD
first), decides at the first segment where `strings.Compare` differs, and
otherwise puts the hostname with fewer segments first.  `splitDots` is the
translation of `strings.Split(host, ".")` at the character-list level, and
`lexLt` is the generic shape shared by the byte-lexicographic comparison of
two segments and the right-to-left walk over the segment lists. -/

def lexLt {α : Type} [DecidableEq α] (lt : α → α → Bool) :
    List α → List α → Bool
  | [], [] => false
  | [], _ :: _ => true
  | _ :: _, [] => false
  | a :: as, b :: bs => if a = b then lexLt lt as bs else lt a b

def charLt (a b : Char) : Bool := decide (a < b)

def splitDots : List Char → List (List Char)
  | [] => [[]]
  | c :: cs =>
    if c = '.' then [] :: splitDots cs
    else
      match splitDots cs with
      | [] => [[c]]
      | s :: ss => (c :: s) :: ss

/-- Dot-separated segments of a hostname, listed from the TLD leftwards (the
Go comparator indexes the split from the right; reversing once lets the
right-to-left walk become an ordinary left-to-right lexicographic walk). -/
def revSegs (s : String) : List (List Char) := (splitDots s.data).reverse

/-- Translation of the `sort.Slice` comparator over hostnames. -/
def hostLt (a b : String) : Bool := lexLt (lexLt charLt) (revSegs a) (revSegs b)

/-- Non-strict version of the comparator used for sorting host entries; the
comparator is a strict total order on distinct hostnames, so any sort
producing a `hostLe`-sorted permutation computes the unique order the Go
`sort.Slice` call produces. -/
def hostLe (a b : hostValues) : Bool := !hostLt b.Host a.Host

def sortHosts (l : List hostValues) : List hostValues :=
  List.insertionSort (fun a b => hostLe a b = true) l

/-- Non-strict byte-lexicographic order on the path keys: text/template ranges
over a string-keyed map in sorted key order. -/
def pathLe (a b : String × pathValues) : Bool := !lexLt charLt b.1.data a.1.data

def sortPaths (l : List (String × pathValues)) : List (String × pathValues) :=
  List.insertionSort (fun a b => pathLe a b = true) l

/-! ## Rendering of the root template `srvTpl`

The default page template is fixed in the source; the definitions below spell
out exactly the text it produces, whitespace trimming (`\x7b\x7b-` and
`-\x7d\x7d`) included.  `htmlEscape` is the escaping html/template applies to
an interpolated plain string in HTML context (the `Text` fields have type
`template.HTML` and are emitted unescaped); for the hostname/path strings of
the record sets considered here the URL filter of the href context is the
identity. -/

def escChar (c : Char) : String :=
  if c = '&' then "&amp;"
  else if c = '<' then "&lt;"
  else if c = '>' then "&gt;"
  else if c = '"' then "&#34;"
  else if c = Char.ofNat 39 then "&#39;"
  else String.singleton c

def htmlEscape (s : String) : String := String.join (s.data.map escChar)

/-- Output of the `pathlink` block for one path value. -/
def pathLink (pv : pathValues) : String :=
  "\n\t\t\t<a class=\"path\" href=\"https://" ++ htmlEscape pv.Host ++
    htmlEscape pv.Path ++ "\">" ++
    (if pv.Text = "" then htmlEscape pv.Path else pv.Text) ++ "</a>"

/-- Output of the `hostlink` block for one host value. -/
def hostLink (hv : hostValues) : String :=
  "\n\t\t<a class=\"host\" href=\"https://" ++ htmlEscape hv.Host ++ "\">" ++
    (if hv.Text = "" then htmlEscape hv.Host else hv.Text) ++ "</a>"

/-- Output of the inner `range .Paths` of the body block: the paths map is
ranged in sorted key order, and a path of exactly "/" renders nothing. -/
def pathsSection (ps : List (String × pathValues)) : String :=
  String.join ((sortPaths ps).map fun kv =>
    if kv.2.Path = "/" then "" else pathLink kv.2)

def hostBlock (hv : hostValues) : String := hostLink hv ++ pathsSection hv.Paths

def pageHeader : String :=
  "<!DOCTYPE html>\n<html>\n<head>\n\t<style>\n\t\thtml \x7b height: 100%; \x7d\n\t\tbody \x7b margin: 0; height: 100%; display: flex; font-family: sans-serif; color-scheme: light dark; background-color: Canvas; \x7d\n\t\t#links \x7b margin: auto; padding: 10px; border-radius: 10px; background-color: light-dark(#eee,#333); \x7d\n\t\ta \x7b display: block; margin: 2px; text-align: right; \x7d\n\t</style>\n</head>\n<body>\n\t<div id=\"links\">"

def pageFooter : String := "\n\t</div>\n</body>\n</html>\n"

/-- Execution of the root template over the sorted host list. -/
def renderPage (hosts : List hostValues) : String :=
  pageHeader ++ String.join (hosts.map hostBlock) ++ pageFooter

/-! ## The reconciliation pass and the page server -/

inductive PassOutcome where
  | ok
  | errored
  | panicked
deriving DecidableEq

/-- One reconciliation pass over the published page pointer.  `listResult` is
the outcome of the record-source list call (`none` = error), `render` the
execution of the (possibly flag-customised) root template (`none` = execution
error).  The pair returned is the new published pointer and how the pass
ended; on the error paths the pointer is returned unchanged and no swap
happens. -/
def reconcilePass (eng : TplEngine) (render : List hostValues → Option String)
    (listResult : Option (List Ingress)) (pub : Option String) :
    Option String × PassOutcome :=
  match listResult with
  | none => (pub, PassOutcome.errored)
  | some items =>
    match aggregate eng items with
    | none => (pub, PassOutcome.panicked)
    | some hostsMap =>
      match render (sortHosts (hostsMap.map (·.2))) with
      | none => (pub, PassOutcome.errored)
      | some page => (some page, PassOutcome.ok)

/-- Render step with the untouched default template set: executing `srvTpl`
over any host list succeeds and produces `renderPage`. -/
def defaultRender (hosts : List hostValues) : Option String :=
  some (renderPage hosts)

/-- Sequential reconciliation passes, threading the published pointer. -/
def runPasses (eng : TplEngine) (render : List hostValues → Option String)
    (passes : List (Option (List Ingress))) (pub : Option String) :
    Option String :=
  passes.foldl (fun p lr => (reconcilePass eng render lr p).1) pub

/-- HTTP response as far as the handler of `GET /` determines it. -/
structure Response where
  status : Nat
  contentType : Option String
  body : String
deriving DecidableEq

/-- Handler installed by `buildServer` for `GET /`: with no published page it
calls `http.NotFound` (status 404, plain-text body "404 page not found\n");
with a published page it sets Content-Type text/html, writes status 200 and
copies the full page bytes. -/
def handleRoot (pub : Option String) : Response :=
  match pub with
  | none => ⟨404, some "text/plain; charset=utf-8", "404 page not found\n"⟩
  | some page => ⟨200, some "text/html", page⟩

/-- Inverse of `splitDots`: rejoining the dot-separated segments. -/
def joinDots : List (List Char) → List Char
  | [] => []
  | [s] => s
  | s :: s2 :: ss => s ++ '.' :: joinDots (s2 :: ss)

/-- Invariant of the host map built by the aggregation: hostnames key the map
uniquely and each entry carries its own key as its `Host` field. -/
def HostMapInv (m : List (String × hostValues)) : Prop :=
  (m.map Prod.fst).Nodup ∧ ∀ kv ∈ m, kv.2.Host = kv.1

/-- Predicate stating that path `p` under host `h` is present with entry `pv`. -/
def HasPathEntry (h p : String) (pv : pathValues)
    (m : List (String × hostValues)) : Prop :=
  ∃ hv, alGet m h = some hv ∧ alGet hv.Paths p = some pv

/-! ## Concrete fixtures -/

/-- Template engine in which every annotation value parses and renders as its
literal text.  This is exactly the behaviour of html/template on action-free
template input, so it is a realisable engine for the examples. -/
def idEngine : TplEngine := ⟨fun _ => true, fun t _ => some t, fun t _ => some t⟩

/-- The empty annotation map: a Go map with no entries reads "" everywhere. -/
def noAnn : String → String := fun _ => ""

/-- The ingress of the README and the end-to-end example of the spec: one rule
carrying only the host, with no `http` section, which decodes to a nil `HTTP`
pointer. -/
def monitoringIngress : Ingress :=
  ⟨"monitoring", "monitoring", noAnn, [⟨"monitoring.cluster1.example.org", none⟩]⟩

/-- The same ingress with an `http` section present but holding no path
items. -/
def monitoringIngressEmptyPaths : Ingress :=
  ⟨"monitoring", "monitoring", noAnn,
    [⟨"monitoring.cluster1.example.org", some ⟨[]⟩⟩]⟩

/-- The document the default template produces for exactly one host link to
monitoring.cluster1.example.org and no path links. -/
def monitoringDoc : String :=
  "<!DOCTYPE html>\n<html>\n<head>\n\t<style>\n\t\thtml \x7b height: 100%; \x7d\n\t\tbody \x7b margin: 0; height: 100%; display: flex; font-family: sans-serif; color-scheme: light dark; background-color: Canvas; \x7d\n\t\t#links \x7b margin: auto; padding: 10px; border-radius: 10px; background-color: light-dark(#eee,#333); \x7d\n\t\ta \x7b display: block; margin: 2px; text-align: right; \x7d\n\t</style>\n</head>\n<body>\n\t<div id=\"links\">\n\t\t<a class=\"host\" href=\"https://monitoring.cluster1.example.org\">monitoring.cluster1.example.org</a>\n\t</div>\n</body>\n</html>\n"

/-- The document the default template produces for an empty host list. -/
def emptyListDoc : String :=
  "<!DOCTYPE html>\n<html>\n<head>\n\t<style>\n\t\thtml \x7b height: 100%; \x7d\n\t\tbody \x7b margin: 0; height: 100%; display: flex; font-family: sans-serif; color-scheme: light dark; background-color: Canvas; \x7d\n\t\t#links \x7b margin: auto; padding: 10px; border-radius: 10px; background-color: light-dark(#eee,#333); \x7d\n\t\ta \x7b display: block; margin: 2px; text-align: right; \x7d\n\t</style>\n</head>\n<body>\n\t<div id=\"links\">\n\t</div>\n</body>\n</html>\n"

/-- Annotation map holding only a host-template override. -/
def hostAnnOf (t : String) : String → String :=
  fun k => if k = hostTemplateAnnKey then t else ""

/-- Annotation map holding only a path-template override. -/
def pathAnnOf (t : String) : String → String :=
  fun k => if k = pathTemplateAnnKey then t else ""

/-- Annotation map holding only the skip marker. -/
def skipAnnOf (v : String) : String → String :=
  fun k => if k = skipAnnKey then v else ""

/-- Two records overriding the display text of the same host, in order. -/
def overrideRecA : Ingress :=
  ⟨"a", "ns", hostAnnOf "A", [⟨"example.com", some ⟨[]⟩⟩]⟩

def overrideRecB : Ingress :=
  ⟨"b", "ns", hostAnnOf "B", [⟨"example.com", some ⟨[]⟩⟩]⟩

/-- Two records contributing the root path "/" under the same host with
different path-template override texts, in order. -/
def rootPathRec1 : Ingress :=
  ⟨"r1", "ns", pathAnnOf "X",
    [⟨"example.org", some ⟨[⟨"/", some PathType.prefixMatch⟩]⟩⟩]⟩

def rootPathRec2 : Ingress :=
  ⟨"r2", "ns", pathAnnOf "Y",
    [⟨"example.org", some ⟨[⟨"/", some PathType.prefixMatch⟩]⟩⟩]⟩

/-- A record with a valid rule that opts out via the skip marker. -/
def skipRec : Ingress :=
  ⟨"s", "ns", skipAnnOf "true", [⟨"skipped.example.com", some ⟨[]⟩⟩]⟩

/-- A record contributing two hosts (for the determinism witness). -/
def twoHostRec : Ingress :=
  ⟨"t", "ns", noAnn,
    [⟨"b.example.com", some ⟨[]⟩⟩, ⟨"a.example.com", some ⟨[]⟩⟩]⟩

/-! ## Order-theoretic facts about the comparator -/

theorem splitDots_ne_nil : ∀ l : List Char, splitDots l ≠ []
  | [] => by simp [splitDots]
  | c :: cs => by
    by_cases hc : c = '.'
    · simp [splitDots, hc]
    · rcases hsp : splitDots cs with _ | ⟨s, ss⟩
      · simp [splitDots, hc, hsp]
      · simp [splitDots, hc, hsp]

theorem joinDots_splitDots : ∀ l : List Char, joinDots (splitDots l) = l
  | [] => rfl
  | c :: cs => by
    have ih := joinDots_splitDots cs
    by_cases hc : c = '.'
    · rcases hsp : splitDots cs with _ | ⟨s, ss⟩
      · exact absurd hsp (splitDots_ne_nil cs)
      · rw [hsp] at ih
        simp only [splitDots, hc, if_pos rfl, hsp]
        subst hc
        simpa [joinDots] using ih
    · rcases hsp : splitDots cs with _ | ⟨s, ss⟩
      · exact absurd hsp (splitDots_ne_nil cs)
      · rw [hsp] at ih
        simp only [splitDots, hc, if_neg hc, hsp]
        rcases ss with _ | ⟨s2, ss2⟩
        · simpa [joinDots] using congrArg (c :: ·) ih
        · simpa [joinDots] using congrArg (c :: ·) ih

theorem splitDots_inj {l₁ l₂ : List Char} (h : splitDots l₁ = splitDots l₂) :
    l₁ = l₂ := by
  rw [← joinDots_splitDots l₁, ← joinDots_splitDots l₂, h]

theorem strData_inj {a b : String} (h : a.data = b.data) : a = b := by
  cases a; cases b; exact congrArg _ h

theorem revSegs_inj {a b : String} (h : revSegs a = revSegs b) : a = b := by
  have hd : a.data = b.data :=
    splitDots_inj (List.reverse_injective (by simpa [revSegs] using h))
  cases a; cases b; exact congrArg _ hd

theorem lexLt_irrefl {α : Type} [DecidableEq α] (lt : α → α → Bool)
    (hirr : ∀ a, lt a a = false) : ∀ l, lexLt lt l l = false
  | [] => rfl
  | a :: as => by simp [lexLt, hirr a, lexLt_irrefl lt hirr as]

theorem lexLt_connx {α : Type} [DecidableEq α] (lt : α → α → Bool)
    (hc : ∀ a b, a ≠ b → lt a b = true ∨ lt b a = true) :
    ∀ l₁ l₂, l₁ ≠ l₂ → lexLt lt l₁ l₂ = true ∨ lexLt lt l₂ l₁ = true
  | [], [] => fun h => absurd rfl h
  | [], _ :: _ => fun _ => Or.inl rfl
  | _ :: _, [] => fun _ => Or.inr rfl
  | a :: as, b :: bs => fun h => by
    by_cases hab : a = b
    · subst hab
      have hne : as ≠ bs := fun hh => h (by rw [hh])
      rcases lexLt_connx lt hc as bs hne with h1 | h1
      · exact Or.inl (by simpa [lexLt] using h1)
      · exact Or.inr (by simpa [lexLt] using h1)
    · rcases hc a b hab with h1 | h1
      · exact Or.inl (by simp [lexLt, hab, h1])
      · have hba : b ≠ a := Ne.symm hab
        exact Or.inr (by simp [lexLt, hba, h1])

theorem lexLt_trans {α : Type} [DecidableEq α] (lt : α → α → Bool)
    (hirr : ∀ a, lt a a = false)
    (htr : ∀ a b c, lt a b = true → lt b c = true → lt a c = true) :
    ∀ l₁ l₂ l₃, lexLt lt l₁ l₂ = true → lexLt lt l₂ l₃ = true →
      lexLt lt l₁ l₃ = true
  | [], [], _ => by simp [lexLt]
  | [], _ :: _, [] => by intro _ h2; simp [lexLt] at h2
  | [], _ :: _, _ :: _ => fun _ _ => rfl
  | _ :: _, [], _ => by intro h1; simp [lexLt] at h1
  | _ :: _, _ :: _, [] => by intro _ h2; simp [lexLt] at h2
  | a :: as, b :: bs, c :: cs => by
    intro h1 h2
    by_cases hab : a = b
    · subst hab
      by_cases hbc : a = c
      · subst hbc
        simp only [lexLt, if_pos rfl] at h1 h2 ⊢
        exact lexLt_trans lt hirr htr as bs cs h1 h2
      · simp only [lexLt, if_pos rfl] at h1
        simp only [lexLt, if_neg hbc] at h2 ⊢
        exact h2
    · by_cases hbc : b = c
      · subst hbc
        simp only [lexLt, if_neg hab] at h1 ⊢
        exact h1
      · simp only [lexLt, if_neg hab] at h1
        simp only [lexLt, if_neg hbc] at h2
        by_cases hac : a = c
        · subst hac
          have := htr a b a h1 h2
          rw [hirr a] at this
          exact absurd this (by simp)
        · simp only [lexLt, if_neg hac]
          exact htr a b c h1 h2

theorem charLt_irrefl (a : Char) : charLt a a = false := by simp [charLt]

theorem charLt_trans (a b c : Char) (h1 : charLt a b = true)
    (h2 : charLt b c = true) : charLt a c = true := by
  simp only [charLt, decide_eq_true_eq] at h1 h2 ⊢
  exact lt_trans h1 h2

theorem charLt_connx (a b : Char) (h : a ≠ b) :
    charLt a b = true ∨ charLt b a = true := by
  simp only [charLt, decide_eq_true_eq]
  exact lt_or_gt_of_ne h

theorem segLt_irrefl (s : List Char) : lexLt charLt s s = false :=
  lexLt_irrefl charLt charLt_irrefl s

theorem segLt_trans {a b c : List Char} (h1 : lexLt charLt a b = true)
    (h2 : lexLt charLt b c = true) : lexLt charLt a c = true :=
  lexLt_trans charLt charLt_irrefl charLt_trans a b c h1 h2

theorem segLt_connx {a b : List Char} (h : a ≠ b) :
    lexLt charLt a b = true ∨ lexLt charLt b a = true :=
  lexLt_connx charLt charLt_connx a b h

theorem hostLt_irrefl (a : String) : hostLt a a = false :=
  lexLt_irrefl (lexLt charLt) segLt_irrefl (revSegs a)

theorem hostLt_trans {a b c : String} (h1 : hostLt a b = true)
    (h2 : hostLt b c = true) : hostLt a c = true :=
  lexLt_trans (lexLt charLt) segLt_irrefl (fun _ _ _ => segLt_trans)
    (revSegs a) (revSegs b) (revSegs c) h1 h2

theorem hostLt_connx {a b : String} (h : a ≠ b) :
    hostLt a b = true ∨ hostLt b a = true :=
  lexLt_connx (lexLt charLt) (fun _ _ => segLt_connx) (revSegs a) (revSegs b)
    (fun hh => h (revSegs_inj hh))

theorem hostLt_eq_of_not {a b : String} (h1 : hostLt a b = false)
    (h2 : hostLt b a = false) : a = b := by
  by_contra hne
  rcases hostLt_connx hne with hh | hh
  · rw [h1] at hh; exact absurd hh (by simp)
  · rw [h2] at hh; exact absurd hh (by simp)

theorem strLt_irrefl (s : String) : lexLt charLt s.data s.data = false :=
  segLt_irrefl s.data

theorem strLt_eq_of_not {a b : String} (h1 : lexLt charLt a.data b.data = false)
    (h2 : lexLt charLt b.data a.data = false) : a = b := by
  by_contra hne
  have hd : a.data ≠ b.data := fun hh => hne (strData_inj hh)
  rcases segLt_connx hd with hh | hh
  · rw [h1] at hh; exact absurd hh (by simp)
  · rw [h2] at hh; exact absurd hh (by simp)

theorem hostLe_total (a b : hostValues) : hostLe a b = true ∨ hostLe b a = true := by
  simp only [hostLe, Bool.not_eq_true', Bool.not_eq_false]
  by_cases h1 : hostLt b.Host a.Host = true
  · right
    by_contra h2
    simp only [Bool.not_eq_false] at h2
    have := hostLt_trans h1 h2
    rw [hostLt_irrefl] at this
    exact absurd this (by simp)
  · left; exact Bool.not_eq_true _ ▸ (by simpa using h1)

theorem hostLe_trans {a b c : hostValues} (h1 : hostLe a b = true)
    (h2 : hostLe b c = true) : hostLe a c = true := by
  simp only [hostLe, Bool.not_eq_true'] at h1 h2 ⊢
  by_contra hca
  simp only [Bool.not_eq_false] at hca
  by_cases hab : a.Host = b.Host
  · rw [← hab] at h2; rw [h2] at hca; exact absurd hca (by simp)
  · rcases hostLt_connx hab with hh | hh
    · have := hostLt_trans hca hh
      rw [h2] at this; exact absurd this (by simp)
    · rw [h1] at hh; exact absurd hh (by simp)

theorem pathLe_total (a b : String × pathValues) :
    pathLe a b = true ∨ pathLe b a = true := by
  simp only [pathLe, Bool.not_eq_true', Bool.not_eq_false]
  by_cases h1 : lexLt charLt b.1.data a.1.data = true
  · right
    by_contra h2
    simp only [Bool.not_eq_false] at h2
    have := segLt_trans h1 h2
    rw [strLt_irrefl] at this
    exact absurd this (by simp)
  · left; simpa using h1

theorem pathLe_trans {a b c : String × pathValues} (h1 : pathLe a b = true)
    (h2 : pathLe b c = true) : pathLe a c = true := by
  simp only [pathLe, Bool.not_eq_true'] at h1 h2 ⊢
  by_contra hca
  simp only [Bool.not_eq_false] at hca
  by_cases hab : a.1 = b.1
  · rw [← hab] at h2; rw [h2] at hca; exact absurd hca (by simp)
  · have hd : a.1.data ≠ b.1.data := fun hh => hab (strData_inj hh)
    rcases segLt_connx hd with hh | hh
    · have := segLt_trans hca hh
      rw [h2] at this; exact absurd this (by simp)
    · rw [h1] at hh; exact absurd hh (by simp)

/-- Uniqueness of a sorted permutation: two key-sorted permutations of a list
whose keys are pairwise distinct are equal, whenever two keys unrelated by the
strict key order are equal.  This is what makes the output of `sort.Slice` (and
of the sorted map range of text/template) independent of the arbitrary Go map
iteration order feeding it. -/
theorem sorted_perm_keyNodup_eq {α κ : Type} (key : α → κ) (klt : κ → κ → Bool)
    (hconn : ∀ x y, klt x y = false → klt y x = false → x = y) :
    ∀ l₁ l₂ : List α, l₁.Perm l₂ →
      l₁.Pairwise (fun a b => klt (key b) (key a) = false) →
      l₂.Pairwise (fun a b => klt (key b) (key a) = false) →
      (l₁.map key).Nodup → l₁ = l₂
  | [], l₂, hp, _, _, _ => (hp.symm.eq_nil).symm
  | a :: t₁, [], hp, _, _, _ => by simpa using hp.eq_nil
  | a :: t₁, b :: t₂, hp, hs₁, hs₂, hnd => by
    have hab : a = b := by
      by_cases h : a = b
      · exact h
      · have hbmem : b ∈ a :: t₁ := hp.mem_iff.mpr (List.mem_cons_self b t₂)
        have hamem : a ∈ b :: t₂ := hp.mem_iff.mp (List.mem_cons_self a t₁)
        have hb1 : b ∈ t₁ := by
          rcases List.mem_cons.mp hbmem with h1 | h1
          · exact absurd h1.symm h
          · exact h1
        have ha2 : a ∈ t₂ := by
          rcases List.mem_cons.mp hamem with h1 | h1
          · exact absurd h1 h
          · exact h1
        have k1 : klt (key b) (key a) = false := List.rel_of_pairwise_cons hs₁ hb1
        have k2 : klt (key a) (key b) = false := List.rel_of_pairwise_cons hs₂ ha2
        have hk : key a = key b := hconn _ _ k2 k1
        have : key a ∉ (t₁.map key) := by
          simp only [List.map_cons, List.nodup_cons] at hnd
          exact hnd.1
        exact absurd (hk ▸ List.mem_map_of_mem key hb1) this
    subst hab
    have ht : t₁.Perm t₂ := hp.cons_inv
    have := sorted_perm_keyNodup_eq key klt hconn t₁ t₂ ht hs₁.tail hs₂.tail
      (by simp only [List.map_cons, List.nodup_cons] at hnd; exact hnd.2)
    rw [this]

theorem sortHosts_pairwise (l : List hostValues) :
    (sortHosts l).Pairwise (fun a b => hostLt b.Host a.Host = false) := by
  haveI : IsTotal hostValues (fun a b => hostLe a b = true) := ⟨hostLe_total⟩
  haveI : IsTrans hostValues (fun a b => hostLe a b = true) :=
    ⟨fun _ _ _ => hostLe_trans⟩
  have := List.sorted_insertionSort (fun a b => hostLe a b = true) l
  exact this.imp (fun h => by simpa [hostLe, Bool.not_eq_true'] using h)

theorem sortHosts_perm (l : List hostValues) : (sortHosts l).Perm l :=
  List.perm_insertionSort _ l

theorem sortPaths_pairwise (l : List (String × pathValues)) :
    (sortPaths l).Pairwise (fun a b => lexLt charLt b.1.data a.1.data = false) := by
  haveI : IsTotal (String × pathValues) (fun a b => pathLe a b = true) := ⟨pathLe_total⟩
  haveI : IsTrans (String × pathValues) (fun a b => pathLe a b = true) :=
    ⟨fun _ _ _ => pathLe_trans⟩
  have := List.sorted_insertionSort (fun a b => pathLe a b = true) l
  exact this.imp (fun h => by simpa [pathLe, Bool.not_eq_true'] using h)

theorem sortPaths_perm (l : List (String × pathValues)) : (sortPaths l).Perm l :=
  List.perm_insertionSort _ l

/-- Sorting the collected host values is independent of the order in which the
Go map handed them over, as long as the hostnames are pairwise distinct. -/
theorem sortHosts_eq_of_perm {l₁ l₂ : List hostValues} (hperm : l₁.Perm l₂)
    (hnd : (l₁.map hostValues.Host).Nodup) : sortHosts l₁ = sortHosts l₂ := by
  refine sorted_perm_keyNodup_eq hostValues.Host hostLt
    (fun x y h1 h2 => hostLt_eq_of_not h1 h2) _ _
    ((sortHosts_perm l₁).trans (hperm.trans (sortHosts_perm l₂).symm))
    (sortHosts_pairwise l₁) (sortHosts_pairwise l₂) ?_
  exact ((sortHosts_perm l₁).map hostValues.Host).nodup_iff.mpr hnd

/-- Sorting the path entries by key is independent of the association-list
order, as long as the path keys are pairwise distinct. -/
theorem sortPaths_eq_of_perm {l₁ l₂ : List (String × pathValues)}
    (hperm : l₁.Perm l₂) (hnd : (l₁.map Prod.fst).Nodup) :
    sortPaths l₁ = sortPaths l₂ := by
  refine sorted_perm_keyNodup_eq (fun kv => kv.1)
    (fun s t => lexLt charLt s.data t.data)
    (fun x y h1 h2 => strLt_eq_of_not h1 h2) _ _
    ((sortPaths_perm l₁).trans (hperm.trans (sortPaths_perm l₂).symm))
    (sortPaths_pairwise l₁) (sortPaths_pairwise l₂) ?_
  exact ((sortPaths_perm l₁).map Prod.fst).nodup_iff.mpr hnd

/-! ## Association-list lemmas -/

theorem alGet_alSet_self {α : Type} (m : List (String × α)) (k : String) (v : α) :
    alGet (alSet m k v) k = some v := by
  induction m with
  | nil => simp [alGet, alSet]
  | cons kv m ih =>
    obtain ⟨k2, w⟩ := kv
    by_cases h : k = k2
    · simp [alSet, h, alGet]
    · simp [alSet, h, alGet, ih]

theorem alGet_alSet_ne {α : Type} (m : List (String × α)) (k k2 : String) (v : α)
    (h : k2 ≠ k) : alGet (alSet m k v) k2 = alGet m k2 := by
  induction m with
  | nil => simp [alGet, alSet, h]
  | cons kv m ih =>
    obtain ⟨k3, w⟩ := kv
    by_cases hk : k = k3
    · subst hk
      simp [alSet, alGet, h]
    · by_cases hk2 : k2 = k3
      · simp [alSet, hk, alGet, hk2]
      · simp [alSet, hk, alGet, hk2, ih]

theorem alGet_none_iff {α : Type} (m : List (String × α)) (k : String) :
    alGet m k = none ↔ k ∉ m.map Prod.fst := by
  induction m with
  | nil => simp [alGet]
  | cons kv m ih =>
    obtain ⟨k2, w⟩ := kv
    by_cases h : k = k2
    · simp [alGet, h]
    · simp [alGet, h, ih]

theorem alGet_mem {α : Type} {m : List (String × α)} {k : String} {v : α}
    (h : alGet m k = some v) : (k, v) ∈ m := by
  induction m with
  | nil => simp [alGet] at h
  | cons kv m ih =>
    obtain ⟨k2, w⟩ := kv
    by_cases hk : k = k2
    · simp only [alGet, if_pos hk] at h
      injection h with h
      subst hk; subst h
      exact List.mem_cons_self _ _
    · simp only [alGet, if_neg hk] at h
      exact List.mem_cons_of_mem _ (ih h)

theorem mem_alSet {α : Type} {m : List (String × α)} {k : String} {v : α}
    {kv : String × α} (h : kv ∈ alSet m k v) : kv = (k, v) ∨ kv ∈ m := by
  induction m with
  | nil => simpa [alSet] using h
  | cons kv2 m ih =>
    obtain ⟨k2, w⟩ := kv2
    by_cases hk : k = k2
    · subst hk
      simp only [alSet, if_pos rfl] at h
      rcases List.mem_cons.mp h with h1 | h1
      · exact Or.inl h1
      · exact Or.inr (List.mem_cons_of_mem _ h1)
    · simp only [alSet, if_neg hk] at h
      rcases List.mem_cons.mp h with h1 | h1
      · right; rw [h1]; exact List.mem_cons_self _ _
      · rcases ih h1 with h2 | h2
        · exact Or.inl h2
        · exact Or.inr (List.mem_cons_of_mem _ h2)

theorem alSet_keys_of_mem {α : Type} {m : List (String × α)} {k : String}
    (v : α) (h : k ∈ m.map Prod.fst) :
    (alSet m k v).map Prod.fst = m.map Prod.fst := by
  induction m with
  | nil => simp at h
  | cons kv m ih =>
    obtain ⟨k2, w⟩ := kv
    by_cases hk : k = k2
    · simp [alSet, hk]
    · simp only [List.map_cons, List.mem_cons] at h
      rcases h with h | h
      · exact absurd h hk
      · simp [alSet, hk, ih h]

theorem alSet_keys_of_not_mem {α : Type} {m : List (String × α)} {k : String}
    (v : α) (h : k ∉ m.map Prod.fst) :
    (alSet m k v).map Prod.fst = m.map Prod.fst ++ [k] := by
  induction m with
  | nil => simp [alSet]
  | cons kv m ih =>
    obtain ⟨k2, w⟩ := kv
    simp only [List.map_cons, List.mem_cons] at h
    push_neg at h
    simp [alSet, h.1, ih h.2]

theorem alSet_keys_nodup {α : Type} {m : List (String × α)} {k : String} {v : α}
    (hnd : (m.map Prod.fst).Nodup) : ((alSet m k v).map Prod.fst).Nodup := by
  by_cases h : k ∈ m.map Prod.fst
  · rw [alSet_keys_of_mem v h]; exact hnd
  · rw [alSet_keys_of_not_mem v h]
    simp only [List.nodup_append, List.nodup_cons, List.not_mem_nil,
      not_false_iff, List.nodup_nil, and_true, List.mem_singleton, true_and]
    refine ⟨hnd, fun a ha hak => h ?_⟩
    rw [← List.mem_singleton.mp hak]; exact ha

/-! ## Aggregation invariants -/

theorem procPath_Host (eng : TplEngine) (pt : Option String) (item : Ingress)
    (rule : IngressRule) (host : String) (hv : hostValues)
    (path : HTTPIngressPath) :
    (procPath eng pt item rule host hv path).Host = hv.Host := by
  unfold procPath
  split <;> rfl

theorem procPath_Text (eng : TplEngine) (pt : Option String) (item : Ingress)
    (rule : IngressRule) (host : String) (hv : hostValues)
    (path : HTTPIngressPath) :
    (procPath eng pt item rule host hv path).Text = hv.Text := by
  unfold procPath
  split <;> rfl

theorem foldl_procPath_Host (eng : TplEngine) (pt : Option String)
    (item : Ingress) (rule : IngressRule) (host : String) :
    ∀ (ps : List HTTPIngressPath) (hv : hostValues),
      (ps.foldl (procPath eng pt item rule host) hv).Host = hv.Host
  | [], _ => rfl
  | path :: ps, hv => by
    rw [List.foldl_cons, foldl_procPath_Host eng pt item rule host ps,
      procPath_Host]

theorem foldl_procPath_Text (eng : TplEngine) (pt : Option String)
    (item : Ingress) (rule : IngressRule) (host : String) :
    ∀ (ps : List HTTPIngressPath) (hv : hostValues),
      (ps.foldl (procPath eng pt item rule host) hv).Text = hv.Text
  | [], _ => rfl
  | path :: ps, hv => by
    rw [List.foldl_cons, foldl_procPath_Text eng pt item rule host ps,
      procPath_Text]

theorem applyHostTpl_Host (eng : TplEngine) (ht : Option String) (item : Ingress)
    (rule : IngressRule) (hv : hostValues) :
    (applyHostTpl eng ht item rule hv).Host = hv.Host := by
  unfold applyHostTpl
  rcases ht with _ | t
  · rfl
  · rcases hex : eng.execHost t ⟨rule.host, item, rule⟩ with _ | s <;> simp [hex]

theorem applyHostTpl_Paths (eng : TplEngine) (ht : Option String) (item : Ingress)
    (rule : IngressRule) (hv : hostValues) :
    (applyHostTpl eng ht item rule hv).Paths = hv.Paths := by
  unfold applyHostTpl
  rcases ht with _ | t
  · rfl
  · rcases hex : eng.execHost t ⟨rule.host, item, rule⟩ with _ | s <;> simp [hex]

theorem ruleEntry_Host {hosts : List (String × hostValues)} {host : String}
    (hInv : HostMapInv hosts) : (ruleEntry hosts host).Host = host := by
  unfold ruleEntry
  rcases halg : alGet hosts host with _ | hv
  · rfl
  · exact hInv.2 _ (alGet_mem halg)

theorem procRule_inv {eng : TplEngine} {ht pt : Option String} {item : Ingress}
    {hosts hosts' : List (String × hostValues)} {rule : IngressRule}
    (hInv : HostMapInv hosts)
    (h : procRule eng ht pt item hosts rule = some hosts') :
    HostMapInv hosts' := by
  unfold procRule at h
  by_cases hh : rule.host = ""
  · rw [if_pos hh] at h
    injection h with h
    rw [← h]; exact hInv
  · rw [if_neg hh] at h
    rcases hhttp : rule.http with _ | httpVal
    · rw [hhttp] at h; exact absurd h (by simp)
    · rw [hhttp] at h
      injection h with h
      rw [← h]
      constructor
      · exact alSet_keys_nodup hInv.1
      · intro kv hkv
        rcases mem_alSet hkv with h1 | h1
        · rw [h1]
          simp only
          rw [foldl_procPath_Host, applyHostTpl_Host, ruleEntry_Host hInv]
        · exact hInv.2 _ h1

/-- Preservation of a predicate along `foldlM` in the `Option` monad. -/
theorem foldlM_option_inv {σ χ : Type} (P : σ → Prop) (f : σ → χ → Option σ)
    (hstep : ∀ s x s', P s → f s x = some s' → P s') :
    ∀ (xs : List χ) (s s' : σ), P s → List.foldlM f s xs = some s' → P s'
  | [], s, s', hP, h => by
    simp only [List.foldlM_nil] at h
    injection h with h
    rw [← h]; exact hP
  | x :: xs, s, s', hP, h => by
    rw [List.foldlM_cons] at h
    rcases hfx : f s x with _ | s1
    · rw [hfx] at h; exact absurd h (by simp [Option.bind])
    · rw [hfx] at h
      simp only [Option.bind_eq_bind, Option.some_bind] at h
      exact foldlM_option_inv P f hstep xs s1 s' (hstep s x s1 hP hfx) h

theorem procItem_inv {eng : TplEngine} {hosts hosts' : List (String × hostValues)}
    {item : Ingress} (hInv : HostMapInv hosts)
    (h : procItem eng hosts item = some hosts') : HostMapInv hosts' := by
  unfold procItem at h
  by_cases hskip : item.annotations skipAnnKey = "true"
  · rw [if_pos hskip] at h
    injection h with h
    rw [← h]; exact hInv
  · rw [if_neg hskip] at h
    unfold procItemBody at h
    exact foldlM_option_inv HostMapInv _
      (fun s r s' hP hr => procRule_inv hP hr) item.rules hosts hosts' hInv h

theorem aggregate_inv {eng : TplEngine} {items : List Ingress}
    {m : List (String × hostValues)} (h : aggregate eng items = some m) :
    HostMapInv m := by
  unfold aggregate at h
  exact foldlM_option_inv HostMapInv _
    (fun s it s' hP hit => procItem_inv hP hit) items [] m
    ⟨List.nodup_nil, by simp⟩ h

/-- The hostnames of the collected host values are pairwise distinct. -/
theorem aggregate_hosts_nodup {eng : TplEngine} {items : List Ingress}
    {m : List (String × hostValues)} (h : aggregate eng items = some m) :
    ((m.map (·.2)).map hostValues.Host).Nodup := by
  have hInv := aggregate_inv h
  have : (m.map (·.2)).map hostValues.Host = m.map Prod.fst := by
    rw [List.map_map]
    exact List.map_congr_left (fun kv hkv => hInv.2 kv hkv)
  rw [this]
  exact hInv.1

/-! ## First-write-wins for path entries

Once a path entry exists under a host, no later path item, rule or record
replaces it: `procPath` only inserts keys that are absent, and the host entry
itself is only ever created when absent and updated in place otherwise. -/

theorem procPath_preserves {eng : TplEngine} {pt : Option String} {item : Ingress}
    {rule : IngressRule} {host p : String} {pv : pathValues} {hv : hostValues}
    (h : alGet hv.Paths p = some pv) (path : HTTPIngressPath) :
    alGet (procPath eng pt item rule host hv path).Paths p = some pv := by
  unfold procPath
  by_cases hguard : resolvePath path = "" ∨ (alGet hv.Paths (resolvePath path)).isSome
  · rw [if_pos hguard]; exact h
  · rw [if_neg hguard]
    push_neg at hguard
    have hne : p ≠ resolvePath path := by
      intro hp
      rw [← hp, h] at hguard
      exact absurd rfl hguard.2
    simp only
    rw [alGet_alSet_ne _ _ _ _ hne]
    exact h

theorem foldl_procPath_preserves {eng : TplEngine} {pt : Option String}
    {item : Ingress} {rule : IngressRule} {host p : String} {pv : pathValues} :
    ∀ (ps : List HTTPIngressPath) (hv : hostValues),
      alGet hv.Paths p = some pv →
      alGet (ps.foldl (procPath eng pt item rule host) hv).Paths p = some pv
  | [], _, h => h
  | path :: ps, hv, h => by
    rw [List.foldl_cons]
    exact foldl_procPath_preserves ps _ (procPath_preserves h path)

theorem applyHostTpl_preserves {eng : TplEngine} {ht : Option String}
    {item : Ingress} {rule : IngressRule} {p : String} {pv : pathValues}
    {hv : hostValues} (h : alGet hv.Paths p = some pv) :
    alGet (applyHostTpl eng ht item rule hv).Paths p = some pv := by
  rw [applyHostTpl_Paths]; exact h

theorem procRule_preserves {eng : TplEngine} {ht pt : Option String}
    {item : Ingress} {hosts hosts' : List (String × hostValues)}
    {rule : IngressRule} {h p : String} {pv : pathValues}
    (hP : HasPathEntry h p pv hosts)
    (hr : procRule eng ht pt item hosts rule = some hosts') :
    HasPathEntry h p pv hosts' := by
  obtain ⟨hv, hmem, hp⟩ := hP
  unfold procRule at hr
  by_cases hh : rule.host = ""
  · rw [if_pos hh] at hr
    injection hr with hr
    exact ⟨hv, hr ▸ hmem, hp⟩
  · rw [if_neg hh] at hr
    rcases hhttp : rule.http with _ | httpVal
    · rw [hhttp] at hr; exact absurd hr (by simp)
    · rw [hhttp] at hr
      injection hr with hr
      by_cases hkh : h = rule.host
      · subst hkh
        have hre : ruleEntry hosts rule.host = hv := by
          unfold ruleEntry; rw [hmem]
        refine ⟨httpVal.paths.foldl (procPath eng pt item rule rule.host)
          (applyHostTpl eng ht item rule (ruleEntry hosts rule.host)), ?_, ?_⟩
        · rw [← hr]; exact alGet_alSet_self _ _ _
        · exact foldl_procPath_preserves _ _
            (applyHostTpl_preserves (by rw [hre]; exact hp))
      · refine ⟨hv, ?_, hp⟩
        rw [← hr, alGet_alSet_ne _ _ _ _ hkh]
        exact hmem

theorem procItem_preserves {eng : TplEngine}
    {hosts hosts' : List (String × hostValues)} {item : Ingress}
    {h p : String} {pv : pathValues} (hP : HasPathEntry h p pv hosts)
    (hi : procItem eng hosts item = some hosts') :
    HasPathEntry h p pv hosts' := by
  unfold procItem at hi
  by_cases hskip : item.annotations skipAnnKey = "true"
  · rw [if_pos hskip] at hi
    injection hi with hi
    rw [← hi]; exact hP
  · rw [if_neg hskip] at hi
    unfold procItemBody at hi
    exact foldlM_option_inv (HasPathEntry h p pv) _
      (fun s r s' hPs hrs => procRule_preserves hPs hrs)
      item.rules hosts hosts' hP hi

/-! ## Root-path suppression in the renderer -/

theorem strJoin_cons (s : String) (l : List String) :
    String.join (s :: l) = s ++ String.join l := by
  apply strData_inj
  rw [String.data_append, String.join_eq, String.join_eq]
  simp

theorem strJoin_filter {α : Type} (f : α → String) (P : α → Bool)
    (hkill : ∀ a, P a = false → f a = "") :
    ∀ l : List α, String.join (l.map f) = String.join ((l.filter P).map f)
  | [] => rfl
  | a :: l => by
    by_cases hPa : P a = true
    · rw [List.map_cons, strJoin_cons, List.filter_cons_of_pos hPa,
        List.map_cons, strJoin_cons, strJoin_filter f P hkill l]
    · have hfa : P a = false := by simpa using hPa
      rw [List.map_cons, strJoin_cons, hkill a hfa,
        List.filter_cons_of_neg (by simp [hfa]), String.empty_append,
        strJoin_filter f P hkill l]

/-- Filtering the root path out of a path map commutes with the sorted render
order, given pairwise-distinct path keys. -/
theorem sortPaths_filter_comm {ps : List (String × pathValues)}
    (P : String × pathValues → Bool) (hnd : (ps.map Prod.fst).Nodup) :
    (sortPaths ps).filter P = sortPaths (ps.filter P) := by
  have hsortnd : ((sortPaths ps).map Prod.fst).Nodup :=
    ((sortPaths_perm ps).map Prod.fst).nodup_iff.mpr hnd
  refine sorted_perm_keyNodup_eq (fun kv => kv.1)
    (fun s t => lexLt charLt s.data t.data)
    (fun x y h1 h2 => strLt_eq_of_not h1 h2) _ _
    (((sortPaths_perm ps).filter P).trans (sortPaths_perm (ps.filter P)).symm)
    ((sortPaths_pairwise ps).filter P)
    (sortPaths_pairwise (ps.filter P)) ?_
  exact ((List.filter_sublist (sortPaths ps)).map Prod.fst).nodup hsortnd

/-- Rendering the path section of a host ignores every entry whose path is
exactly "/": the output equals the output over the map with those entries
removed. -/
theorem pathsSection_filter_root {ps : List (String × pathValues)}
    (hnd : (ps.map Prod.fst).Nodup) :
    pathsSection ps = pathsSection (ps.filter fun kv => kv.2.Path != "/") := by
  unfold pathsSection
  rw [strJoin_filter (fun kv => if kv.2.Path = "/" then "" else pathLink kv.2)
    (fun kv => kv.2.Path != "/")
    (fun kv hkv => by
      have : kv.2.Path = "/" := by simpa using hkv
      simp [this])
    (sortPaths ps)]
  rw [sortPaths_filter_comm _ hnd]

/-! ## Skipped records contribute nothing -/

theorem procItem_skip {eng : TplEngine} {hosts : List (String × hostValues)}
    {item : Ingress} (hskip : item.annotations skipAnnKey = "true") :
    procItem eng hosts item = some hosts := by
  simp [procItem, hskip]

theorem aggregate_skip (eng : TplEngine) (pre post : List Ingress) (it : Ingress)
    (hskip : it.annotations skipAnnKey = "true") :
    aggregate eng (pre ++ it :: post) = aggregate eng (pre ++ post) := by
  unfold aggregate
  rw [List.foldlM_append, List.foldlM_append]
  rcases hpre : List.foldlM (procItem eng) [] pre with _ | m
  · simp
  · simp only [Option.bind_eq_bind, Option.some_bind]
    rw [List.foldlM_cons, procItem_skip hskip]
    simp

/-! ## Last-write-wins for host display text -/

theorem applyHostTpl_Text_exec {eng : TplEngine} {t : String} {item : Ingress}
    {rule : IngressRule} {hv : hostValues} {rendered : String}
    (hexec : eng.execHost t ⟨rule.host, item, rule⟩ = some rendered) :
    (applyHostTpl eng (some t) item rule hv).Text = rendered := by
  unfold applyHostTpl
  dsimp only
  rw [hexec]

/-- Appending one more record whose host-template override parses and renders
successfully sets the display text of that host to the new rendering, whatever
any earlier record had put there: host display text is last-write-wins. -/
theorem hostText_lastWins (eng : TplEngine) (items : List Ingress) (it : Ingress)
    (rule : IngressRule) (httpVal : HTTPIngressRuleValue) (rendered : String)
    (m : List (String × hostValues))
    (hskip : it.annotations skipAnnKey ≠ "true")
    (hrules : it.rules = [rule])
    (hhost : rule.host ≠ "")
    (hhttp : rule.http = some httpVal)
    (hann : it.annotations hostTemplateAnnKey ≠ "")
    (hparse : eng.parseOk (it.annotations hostTemplateAnnKey) = true)
    (hexec : eng.execHost (it.annotations hostTemplateAnnKey)
      ⟨rule.host, it, rule⟩ = some rendered)
    (hagg : aggregate eng (items ++ [it]) = some m) :
    (alGet m rule.host).map hostValues.Text = some rendered := by
  unfold aggregate at hagg
  rw [List.foldlM_append] at hagg
  rcases hpre : List.foldlM (procItem eng) [] items with _ | m0
  · rw [hpre] at hagg
    exact absurd hagg (by simp)
  · rw [hpre] at hagg
    simp only [Option.bind_eq_bind, Option.some_bind] at hagg
    rw [List.foldlM_cons] at hagg
    have hrec : recTpl eng (it.annotations hostTemplateAnnKey) =
        some (it.annotations hostTemplateAnnKey) := by
      simp [recTpl, hann, hparse]
    have hit : procItem eng m0 it = some (alSet m0 rule.host
        (httpVal.paths.foldl
          (procPath eng (recTpl eng (it.annotations pathTemplateAnnKey))
            it rule rule.host)
          (applyHostTpl eng (some (it.annotations hostTemplateAnnKey)) it rule
            (ruleEntry m0 rule.host)))) := by
      unfold procItem
      rw [if_neg hskip]
      unfold procItemBody
      rw [hrules, List.foldlM_cons]
      unfold procRule
      rw [if_neg hhost, hhttp, hrec]
      simp
    rw [hit] at hagg
    simp only [Option.bind_eq_bind, Option.some_bind, List.foldlM_nil] at hagg
    injection hagg with hagg
    rw [← hagg, alGet_alSet_self]
    simp only [Option.map_some']
    rw [foldl_procPath_Text, applyHostTpl_Text_exec hexec]

/-- A path entry present after some records stays untouched by any further
records: path entries (key and display text) are first-write-wins. -/
theorem pathEntry_preserved {eng : TplEngine} {items more : List Ingress}
    {h p : String} {pv : pathValues} {m m' : List (String × hostValues)}
    (h1 : aggregate eng items = some m) (hP : HasPathEntry h p pv m)
    (h2 : aggregate eng (items ++ more) = some m') : HasPathEntry h p pv m' := by
  unfold aggregate at h1 h2
  rw [List.foldlM_append, h1] at h2
  simp only [Option.bind_eq_bind, Option.some_bind] at h2
  exact foldlM_option_inv (HasPathEntry h p pv) _
    (fun s x s' hPs hs => procItem_preserves hPs hs) more m m' hP h2

/-! ## Pass-level lemmas -/

theorem reconcilePass_isSome {eng : TplEngine}
    {render : List hostValues → Option String} {pub : Option String}
    (lr : Option (List Ingress)) (hpub : pub.isSome = true) :
    ((reconcilePass eng render lr pub).1).isSome = true := by
  unfold reconcilePass
  rcases lr with _ | items
  · exact hpub
  · rcases hagg : aggregate eng items with _ | hostsMap
    · simpa [hagg] using hpub
    · rcases hrender : render (sortHosts (hostsMap.map (·.2))) with _ | page
      · simpa [hagg, hrender] using hpub
      · simp [hagg, hrender]

theorem runPasses_isSome {eng : TplEngine}
    {render : List hostValues → Option String} :
    ∀ (passes : List (Option (List Ingress))) (pub : Option String),
      pub.isSome = true → (runPasses eng render passes pub).isSome = true
  | [], pub, hpub => hpub
  | lr :: passes, pub, hpub => by
    unfold runPasses
    rw [List.foldl_cons]
    exact runPasses_isSome passes _ (reconcilePass_isSome lr hpub)

/-! ## Claims -/

set_option maxRecDepth 20000 in
/-- C1: the claim says aggregation never fails and that the end-to-end example
(one record whose rule has host monitoring.cluster1.example.org and no path
entries) renders one host link.  The code contradicts it: on exactly that
record — a nil `http` section, as the README manifest decodes — the pass
dereferences the nil pointer and panics (`aggregate` evaluates to `none`) for
every template engine.  The second conjunct shows the intended behaviour of
the claim does appear when the `http` section is present but empty: the pass
succeeds and renders exactly the one-host document with no path links. -/
theorem claim_C1_aggregate_panics_on_example :
    (∀ eng : TplEngine, aggregate eng [monitoringIngress] = none) ∧
    (∀ eng : TplEngine, (aggregate eng [monitoringIngressEmptyPaths]).map
      (fun m => renderPage (sortHosts (m.map (·.2)))) = some monitoringDoc) :=
  ⟨fun _ => rfl, fun _ => rfl⟩

/-- C2 counterexample: two records override the display text of the same host
with "A" (first) and "B" (second); the aggregated host entry carries the
second record's text "B", so the first record's override does not win and the
claim's first-wins rule for host display text is false on this input. -/
theorem claim_C2_counterexample :
    Option.bind (aggregate idEngine [overrideRecA, overrideRecB])
      (fun m => alGet m "example.com") = some ⟨"example.com", "B", []⟩ ∧
    ("B" : String) ≠ "A" :=
  ⟨by decide, by decide⟩

/-- C2 amended: path display text is first-wins — a path entry, display text
included, is never replaced once set — but host display text is last-wins:
each later record whose host-template override parses and renders successfully
overwrites the host display text with its own rendering. -/
theorem claim_C2_amended_host_last_wins_path_first_wins :
    (∀ (eng : TplEngine) (items : List Ingress) (it : Ingress)
      (rule : IngressRule) (httpVal : HTTPIngressRuleValue) (rendered : String)
      (m : List (String × hostValues)),
      it.annotations skipAnnKey ≠ "true" →
      it.rules = [rule] →
      rule.host ≠ "" →
      rule.http = some httpVal →
      it.annotations hostTemplateAnnKey ≠ "" →
      eng.parseOk (it.annotations hostTemplateAnnKey) = true →
      eng.execHost (it.annotations hostTemplateAnnKey)
        ⟨rule.host, it, rule⟩ = some rendered →
      aggregate eng (items ++ [it]) = some m →
      (alGet m rule.host).map hostValues.Text = some rendered) ∧
    (∀ (eng : TplEngine) (items more : List Ingress) (h p : String)
      (pv : pathValues) (m m' : List (String × hostValues)),
      aggregate eng items = some m →
      HasPathEntry h p pv m →
      aggregate eng (items ++ more) = some m' →
      HasPathEntry h p pv m') :=
  ⟨hostText_lastWins,
   fun _ _ _ _ _ _ _ _ h1 hP h2 => pathEntry_preserved h1 hP h2⟩

/-- C2 witness: the amended claim applied at concrete inputs — appending the
record overriding with "B" after the record overriding with "A" leaves "B" as
the host display text, and the root-path entry contributed with text "X" by
the first record survives aggregation of a second record trying "Y". -/
theorem claim_C2_witness :
    (alGet [("example.com", (⟨"example.com", "B", []⟩ : hostValues))]
      "example.com").map hostValues.Text = some "B" ∧
    HasPathEntry "example.org" "/" ⟨"example.org", "/", "X"⟩
      [("example.org", ⟨"example.org", "", [("/", ⟨"example.org", "/", "X"⟩)]⟩)] :=
  ⟨claim_C2_amended_host_last_wins_path_first_wins.1 idEngine [overrideRecA]
      overrideRecB ⟨"example.com", some ⟨[]⟩⟩ ⟨[]⟩ "B"
      [("example.com", ⟨"example.com", "B", []⟩)]
      (by decide) rfl (by decide) rfl (by decide) rfl rfl (by decide),
   claim_C2_amended_host_last_wins_path_first_wins.2 idEngine [rootPathRec1]
      [rootPathRec2] "example.org" "/" ⟨"example.org", "/", "X"⟩
      [("example.org", ⟨"example.org", "", [("/", ⟨"example.org", "/", "X"⟩)]⟩)]
      [("example.org", ⟨"example.org", "", [("/", ⟨"example.org", "/", "X"⟩)]⟩)]
      (by decide)
      ⟨⟨"example.org", "", [("/", ⟨"example.org", "/", "X"⟩)]⟩, by decide, by decide⟩
      (by decide)⟩

/-- C3: the sorted host list is ordered by the right-to-left segment
comparator of the source (no later entry compares strictly below an earlier
one), and the four example hosts come out exactly in the claimed order. -/
theorem claim_C3_sort_order :
    (∀ l : List hostValues,
      (sortHosts l).Pairwise (fun a b => hostLt b.Host a.Host = false)) ∧
    (sortHosts [⟨"a.example.com", "", []⟩, ⟨"example.com", "", []⟩,
        ⟨"b.example.com", "", []⟩, ⟨"zzz.org", "", []⟩]).map hostValues.Host =
      ["example.com", "a.example.com", "b.example.com", "zzz.org"] :=
  ⟨sortHosts_pairwise, by decide⟩

/-- C4: a reconciliation pass whose record-source list fails, or whose root
template execution fails, reports the error and leaves the published pointer
exactly as it was — no swap happens on either error path. -/
theorem claim_C4_error_paths_keep_previous_view :
    ∀ (eng : TplEngine) (render : List hostValues → Option String)
      (pub : Option String) (items : List Ingress)
      (hostsMap : List (String × hostValues)),
      reconcilePass eng render none pub = (pub, PassOutcome.errored) ∧
      (aggregate eng items = some hostsMap →
        render (sortHosts (hostsMap.map (·.2))) = none →
        reconcilePass eng render (some items) pub = (pub, PassOutcome.errored)) := by
  intro eng render pub items hostsMap
  refine ⟨rfl, fun hagg hrender => ?_⟩
  simp [reconcilePass, hagg, hrender]

/-- C4 witness: the theorem applied to a failing render function over an empty
record list, with a previously published page. -/
theorem claim_C4_witness :
    reconcilePass idEngine (fun _ => none) none (some "page") =
      (some "page", PassOutcome.errored) ∧
    reconcilePass idEngine (fun _ => none) (some []) (some "page") =
      (some "page", PassOutcome.errored) :=
  ⟨(claim_C4_error_paths_keep_previous_view idEngine (fun _ => none)
      (some "page") [] []).1,
   (claim_C4_error_paths_keep_previous_view idEngine (fun _ => none)
      (some "page") [] []).2 rfl rfl⟩

/-- C5 counterexample: with no published document the handler answers 404 but
its body is the standard plain-text "404 page not found" line, not empty, so
the claim's "no body" is false. -/
theorem claim_C5_counterexample :
    (handleRoot none).status = 404 ∧
    (handleRoot none).body = "404 page not found\n" ∧
    (handleRoot none).body ≠ "" :=
  ⟨rfl, rfl, by decide⟩

/-- C5 amended: while no document is published, `GET /` answers 404 with the
standard Go plain-text "404 page not found" body; once a document is
published it answers 200 with Content-Type text/html and the full bytes of
the published document. -/
theorem claim_C5_amended_not_found_then_full_page :
    handleRoot none =
      ⟨404, some "text/plain; charset=utf-8", "404 page not found\n"⟩ ∧
    ∀ page, handleRoot (some page) = ⟨200, some "text/html", page⟩ :=
  ⟨rfl, fun _ => rfl⟩

/-- C6: a record whose skip annotation is literally "true" contributes nothing
— aggregation over a list with the record equals aggregation over the list
without it — and a record with any other value takes the normal processing
path. -/
theorem claim_C6_skip_marker :
    (∀ (eng : TplEngine) (pre post : List Ingress) (it : Ingress),
      it.annotations skipAnnKey = "true" →
      aggregate eng (pre ++ it :: post) = aggregate eng (pre ++ post)) ∧
    (∀ (eng : TplEngine) (hosts : List (String × hostValues)) (it : Ingress),
      it.annotations skipAnnKey ≠ "true" →
      procItem eng hosts it = procItemBody eng hosts it) :=
  ⟨fun eng pre post it h => aggregate_skip eng pre post it h,
   fun eng hosts it h => by simp [procItem, h]⟩

/-- C6 witness: the theorem applied to a skipping record with a valid rule in
front of a normal record, and to a normal record without the marker. -/
theorem claim_C6_witness :
    skipRec.annotations skipAnnKey = "true" ∧
    aggregate idEngine ([] ++ skipRec :: [monitoringIngressEmptyPaths]) =
      aggregate idEngine ([] ++ [monitoringIngressEmptyPaths]) ∧
    procItem idEngine [] monitoringIngressEmptyPaths =
      procItemBody idEngine [] monitoringIngressEmptyPaths :=
  ⟨rfl,
   claim_C6_skip_marker.1 idEngine [] [monitoringIngressEmptyPaths] skipRec rfl,
   claim_C6_skip_marker.2 idEngine [] monitoringIngressEmptyPaths (by decide)⟩

/-- C7: a root path "/" is recorded in the host path map — here it dedups a
second record's "/" so the first record's entry and text survive — and the
rendered path section of any host is unchanged when every "/" entry is
removed before rendering, so "/" never appears as a path-level link. -/
theorem claim_C7_root_path_recorded_not_rendered :
    (Option.bind (aggregate idEngine [rootPathRec1, rootPathRec2])
      (fun m => alGet m "example.org") =
      some ⟨"example.org", "", [("/", ⟨"example.org", "/", "X"⟩)]⟩) ∧
    (∀ ps : List (String × pathValues), (ps.map Prod.fst).Nodup →
      pathsSection ps = pathsSection (ps.filter fun kv => kv.2.Path != "/")) :=
  ⟨by decide, fun ps h => pathsSection_filter_root h⟩

/-- C7 witness: the suppression part applied to a concrete two-entry path map
holding the root path and one ordinary path. -/
theorem claim_C7_witness :
    (([("/", (⟨"links.example", "/", ""⟩ : pathValues)),
       ("/a", ⟨"links.example", "/a", ""⟩)].map Prod.fst).Nodup) ∧
    pathsSection [("/", ⟨"links.example", "/", ""⟩),
        ("/a", ⟨"links.example", "/a", ""⟩)] =
      pathsSection ([("/", ⟨"links.example", "/", ""⟩),
        ("/a", ⟨"links.example", "/a", ""⟩)].filter fun kv => kv.2.Path != "/") :=
  ⟨by decide,
   claim_C7_root_path_recorded_not_rendered.2
     [("/", ⟨"links.example", "/", ""⟩), ("/a", ⟨"links.example", "/a", ""⟩)]
     (by decide)⟩

/-- C8: for a fixed record set, rendering is independent of the order in which
the Go map of collected hosts hands its values to the sort: any two
permutations of the aggregated host values render to the same bytes. -/
theorem claim_C8_determinism :
    ∀ (eng : TplEngine) (items : List Ingress)
      (m : List (String × hostValues)) (l₁ l₂ : List hostValues),
      aggregate eng items = some m →
      l₁.Perm (m.map (·.2)) → l₂.Perm (m.map (·.2)) →
      renderPage (sortHosts l₁) = renderPage (sortHosts l₂) := by
  intro eng items m l₁ l₂ hagg h1 h2
  have hnd : ((m.map (·.2)).map hostValues.Host).Nodup :=
    aggregate_hosts_nodup hagg
  have hnd1 : (l₁.map hostValues.Host).Nodup :=
    (h1.map hostValues.Host).nodup_iff.mpr hnd
  rw [sortHosts_eq_of_perm (h1.trans h2.symm) hnd1]

/-- C8 witness: the theorem applied to the two-host record set with the two
orders in which the Go map could yield the collected values. -/
theorem claim_C8_witness :
    renderPage (sortHosts [⟨"b.example.com", "", []⟩, ⟨"a.example.com", "", []⟩]) =
      renderPage (sortHosts [⟨"a.example.com", "", []⟩, ⟨"b.example.com", "", []⟩]) :=
  claim_C8_determinism idEngine [twoHostRec]
    [("b.example.com", ⟨"b.example.com", "", []⟩),
     ("a.example.com", ⟨"a.example.com", "", []⟩)]
    [⟨"b.example.com", "", []⟩, ⟨"a.example.com", "", []⟩]
    [⟨"a.example.com", "", []⟩, ⟨"b.example.com", "", []⟩]
    (by decide) (by decide) (by decide)

/-- C9: once the published pointer holds a document it never becomes empty
again: one pass never swaps in an absent document, and any sequence of passes
keeps the pointer occupied. -/
theorem claim_C9_ready_never_reverts :
    ∀ (eng : TplEngine) (render : List hostValues → Option String)
      (pub : Option String), pub.isSome = true →
      (∀ lr : Option (List Ingress),
        ((reconcilePass eng render lr pub).1).isSome = true) ∧
      (∀ passes : List (Option (List Ingress)),
        (runPasses eng render passes pub).isSome = true) :=
  fun eng render pub hpub =>
    ⟨fun lr => reconcilePass_isSome lr hpub,
     fun passes => runPasses_isSome passes pub hpub⟩

/-- C9 witness: the theorem applied to a published document and a failing
pass. -/
theorem claim_C9_witness :
    (some "doc" : Option String).isSome = true ∧
    ((reconcilePass idEngine defaultRender none (some "doc")).1).isSome = true ∧
    (runPasses idEngine defaultRender [none] (some "doc")).isSome = true :=
  ⟨rfl,
   (claim_C9_ready_never_reverts idEngine defaultRender (some "doc") rfl).1 none,
   (claim_C9_ready_never_reverts idEngine defaultRender (some "doc") rfl).2 [none]⟩

set_option maxRecDepth 20000 in
/-- C10: a pass over an empty record list succeeds with the default template:
it publishes the zero-host document (also from the Empty state), and `GET /`
then serves that document with status 200 and Content-Type text/html. -/
theorem claim_C10_empty_list_publishes :
    ∀ (eng : TplEngine) (pub : Option String),
      reconcilePass eng defaultRender (some []) pub =
        (some emptyListDoc, PassOutcome.ok) ∧
      handleRoot (some emptyListDoc) = ⟨200, some "text/html", emptyListDoc⟩ :=
  fun _ _ => ⟨rfl, rfl⟩
